/-
Verification of the carvbot in-memory core: the sliding-window RateLimiter
(`src/utils/rateLimiter.js`) and the bounded per-user ConversationStore
(`AIService.getConversationHistory` / `updateConversationHistory` /
`clearConversationHistory` in `src/services/aiService.js`).

The JavaScript `Map` objects are embedded as association lists
`List (String × List α)` with JS `Map` semantics: `get` returns the value at
the first matching key (defaulting to `[]`, mirroring `map.get(u) || []`),
`set` overwrites in place when the key is present and appends otherwise, and
`delete` removes the key's entry.  Timestamps are `Int` (JS millisecond
numbers; the spec notes the clock may move backward, so we do not assume
non-negativity).  The configuration values `W` (`rateLimitWindowMs`),
`L` (`rateLimitPerUser`) and `maxH` (`maxHistoryLength`) are parameters.

Every stateful method is embedded as a function from the map state to
(result ×) new map state, translated statement-by-statement from the source.
-/
import Mathlib

namespace Carvbot

/-! ## JS `Map` embedding -/

/-- `map.get(k) || []`: value at the first entry whose key is `k`, else `[]`. -/
def mapGet (s : List (String × List α)) (k : String) : List α :=
  match s with
  | [] => []
  | p :: rest => if p.1 = k then p.2 else mapGet rest k

/-- `map.set(k, v)`: overwrite the entry for `k` in place, or append a new one. -/
def mapSet (s : List (String × List α)) (k : String) (v : List α) :
    List (String × List α) :=
  match s with
  | [] => [(k, v)]
  | p :: rest => if p.1 = k then (k, v) :: rest else p :: mapSet rest k v

/-- `map.delete(k)`: drop the entry for `k`. -/
def mapDelete (s : List (String × List α)) (k : String) :
    List (String × List α) :=
  s.filter (fun p => !(p.1 = k : Bool))

theorem mapGet_mapSet_self (s : List (String × List α)) (k : String)
    (v : List α) : mapGet (mapSet s k v) k = v := by
  induction s with
  | nil => simp [mapGet, mapSet]
  | cons p rest ih =>
    by_cases h : p.1 = k
    · simp [mapGet, mapSet, h]
    · simp [mapGet, mapSet, h, ih]

theorem mapGet_mapSet_ne (s : List (String × List α)) (k k' : String)
    (v : List α) (hne : k ≠ k') : mapGet (mapSet s k v) k' = mapGet s k' := by
  induction s with
  | nil => simp [mapGet, mapSet, hne]
  | cons p rest ih =>
    by_cases h : p.1 = k
    · simp [mapGet, mapSet, h, hne]
    · simp only [mapSet, h, if_false]
      by_cases h' : p.1 = k'
      · simp [mapGet, h']
      · simp [mapGet, h', ih]

theorem mapGet_mapDelete_self (s : List (String × List α)) (k : String) :
    mapGet (mapDelete s k) k = [] := by
  induction s with
  | nil => simp [mapGet, mapDelete]
  | cons p rest ih =>
    by_cases h : p.1 = k
    · simpa [mapDelete, List.filter, h] using ih
    · simpa [mapDelete, List.filter, h, mapGet] using ih

theorem mapGet_mapDelete_ne (s : List (String × List α)) (k k' : String)
    (hne : k ≠ k') : mapGet (mapDelete s k) k' = mapGet s k' := by
  induction s with
  | nil => simp [mapGet, mapDelete]
  | cons p rest ih =>
    by_cases h : p.1 = k
    · have h' : ¬ p.1 = k' := by rw [h]; exact hne
      simpa [mapDelete, List.filter, h, mapGet, h', hne] using ih
    · by_cases h' : p.1 = k'
      · simp [mapDelete, List.filter, h, mapGet, h', Ne.symm hne]
      · simpa [mapDelete, List.filter, h, mapGet, h'] using ih

/-! ## RateLimiter (`src/utils/rateLimiter.js`)

State: `this.userRequests : Map<string, number[]>`. -/

/-- The rate limiter's map from user id to recorded request timestamps. -/
abbrev RL : Type := List (String × List Int)

/-- The filter expression
`requests.filter(timestamp => now - timestamp < config.bot.rateLimitWindowMs)`
shared by `isRateLimited` and `getRemainingRequests`. -/
def validOf (W now : Int) (ts : List Int) : List Int :=
  ts.filter (fun t => now - t < W)

/-- `isRateLimited(userId)`: prune the user's list to the valid window,
store the pruned list back, and report whether its length reached the
limit `L` (`validRequests.length >= config.bot.rateLimitPerUser`). -/
def isRateLimited (W : Int) (L : Nat) (now : Int) (s : RL) (u : String) :
    Bool × RL :=
  let userRequests := mapGet s u
  let validRequests := validOf W now userRequests
  let s2 := mapSet s u validRequests
  (decide (L ≤ validRequests.length), s2)

/-- `recordRequest(userId)`: push `now` onto the user's list and store it. -/
def recordRequest (now : Int) (s : RL) (u : String) : RL :=
  mapSet s u (mapGet s u ++ [now])

/-- `getRemainingRequests(userId)`: `Math.max(0, L - validRequests.length)`.
The method never writes the map, so the state component is `s` itself. -/
def getRemainingRequests (W : Int) (L : Nat) (now : Int) (s : RL)
    (u : String) : Int × RL :=
  let validRequests := validOf W now (mapGet s u)
  (max 0 ((L : Int) - (validRequests.length : Int)), s)

/-- `Math.min(...list)` for a nonempty list (the `[]` case is guarded by the
caller; JS would yield `Infinity` there). -/
def listMin : List Int → Int
  | [] => 0
  | t :: ts => ts.foldl min t

/-- `getTimeUntilReset(userId)`: `0` when `userRequests.length === 0`,
otherwise `Math.max(0, Math.min(...userRequests) + W - now)`.  Note the
minimum ranges over ALL stored timestamps, expired ones included.  The
method never writes the map, so the state component is `s` itself. -/
def getTimeUntilReset (W now : Int) (s : RL) (u : String) : Int × RL :=
  let userRequests := mapGet s u
  (if userRequests.length = 0 then 0
   else max 0 (listMin userRequests + W - now), s)

/-- `cleanup()`: for every user, keep `requests.filter(t => t > cutoff)`
with `cutoff = now - W`; delete users whose filtered list is empty. -/
def cleanup (W now : Int) (s : RL) : RL :=
  (s.map (fun p => (p.1, p.2.filter (fun t => now - W < t)))).filter
    (fun p => !p.2.isEmpty)

/-- `getStats()`: `(activeUsers, totalRequests)` = map size and the sum of
all stored list lengths. -/
def getStats (s : RL) : Nat × Nat :=
  (s.length, (s.map (fun p => p.2.length)).foldl (· + ·) 0)

/-- Fold recording one request per timestamp in `ts`, in order. -/
def recordRequests (ts : List Int) (s : RL) (u : String) : RL :=
  ts.foldl (fun s' t => recordRequest t s' u) s

theorem mapGet_recordRequests (ts : List Int) (s : RL) (u : String) :
    mapGet (recordRequests ts s u) u = mapGet s u ++ ts := by
  induction ts generalizing s with
  | nil => simp [recordRequests]
  | cons t rest ih =>
    simp only [recordRequests, List.foldl_cons]
    have := ih (recordRequest t s u)
    simp only [recordRequests] at this
    rw [this, recordRequest, mapGet_mapSet_self, List.append_assoc,
      List.singleton_append]

/-! ## ConversationStore (`AIService`, `src/services/aiService.js`)

State: `this.conversationHistory : Map<string, {role, content}[]>`, with
`this.maxHistoryLength` (10 in the source) as parameter `maxH`. -/

/-- One history entry `{role, content}`. -/
structure Msg where
  role : String
  content : String
deriving DecidableEq, Repr

/-- The conversation-history map. -/
abbrev CH : Type := List (String × List Msg)

/-- JS `array.slice(-n)`: the last `n` elements, except that `slice(-0)`
is `slice(0)`, the whole array. -/
def sliceLast (n : Nat) (l : List α) : List α :=
  if n = 0 then l else l.drop (l.length - n)

/-- `getConversationHistory(userId)`:
`(this.conversationHistory.get(userId) || []).slice(-this.maxHistoryLength * 2)`. -/
def getConversationHistory (maxH : Nat) (s : CH) (u : String) : List Msg :=
  sliceLast (maxH * 2) (mapGet s u)

/-- `updateConversationHistory(userId, userMessage, assistantResponse)`:
push the user and assistant turns onto a copy of `getConversationHistory`,
`splice` off the front while the length exceeds `maxExchanges * 2`, and
store the result. -/
def updateConversationHistory (maxH : Nat) (s : CH) (u um am : String) :
    CH :=
  let history := getConversationHistory maxH s u ++
    [⟨"user", um⟩, ⟨"assistant", am⟩]
  let history2 := if maxH * 2 < history.length then
    history.drop (history.length - maxH * 2) else history
  mapSet s u history2

/-- `clearConversationHistory(userId)`: `this.conversationHistory.delete(userId)`. -/
def clearConversationHistory (s : CH) (u : String) : CH :=
  mapDelete s u

/-- The two history entries one exchange appends. -/
def exchangeMsgs (p : String × String) : List Msg :=
  [⟨"user", p.1⟩, ⟨"assistant", p.2⟩]

/-- Fold appending one exchange per pair in `exs`, in order. -/
def appendExchanges (maxH : Nat) (exs : List (String × String)) (s : CH)
    (u : String) : CH :=
  exs.foldl (fun s' p => updateConversationHistory maxH s' u p.1 p.2) s

/-! ### Suffix helper: "drop from the front down to `n` elements" -/

/-- The last `min n l.length` elements of `l`: what remains after dropping
from the front, oldest first, down to at most `n` entries. -/
def lastN (n : Nat) (l : List α) : List α :=
  l.drop (l.length - n)

theorem lastN_of_le {n : Nat} {l : List α} (h : l.length ≤ n) :
    lastN n l = l := by
  simp [lastN, Nat.sub_eq_zero_of_le h]

theorem length_lastN (n : Nat) (l : List α) :
    (lastN n l).length = min n l.length := by
  simp [lastN]
  omega

theorem length_lastN_le (n : Nat) (l : List α) : (lastN n l).length ≤ n := by
  rw [length_lastN]; exact Nat.min_le_left _ _

theorem lastN_eq_rtake (n : Nat) (l : List α) : lastN n l = l.rtake n := rfl

/-- Trimming, appending more, and trimming again is the same as trimming the
full concatenation once. -/
theorem lastN_append_lastN (n : Nat) (l m : List α) :
    lastN n (lastN n l ++ m) = lastN n (l ++ m) := by
  rw [lastN_eq_rtake, lastN_eq_rtake, lastN_eq_rtake,
    List.rtake_eq_reverse_take_reverse, List.rtake_eq_reverse_take_reverse,
    List.rtake_eq_reverse_take_reverse]
  rw [List.reverse_append, List.reverse_reverse, List.reverse_append]
  rw [List.take_append_eq_append_take, List.take_append_eq_append_take]
  rw [List.take_take]
  have hmin : min (n - m.reverse.length) n = n - m.reverse.length :=
    Nat.min_eq_left (Nat.sub_le _ _)
  rw [hmin]

/-! ### ConversationStore lemmas -/

theorem mapGet_update_self (maxH : Nat) (s : CH) (u um am : String) :
    mapGet (updateConversationHistory maxH s u um am) u
      = lastN (maxH * 2)
          (getConversationHistory maxH s u ++ [⟨"user", um⟩, ⟨"assistant", am⟩]) := by
  unfold updateConversationHistory
  rw [mapGet_mapSet_self]
  set h := getConversationHistory maxH s u ++ [⟨"user", um⟩, ⟨"assistant", am⟩]
    with hh
  by_cases hc : maxH * 2 < h.length
  · simp only [hc, if_true]; rfl
  · simp only [hc, if_false]
    rw [lastN_of_le (Nat.le_of_not_lt hc)]

theorem getHistory_eq_mapGet (maxH : Nat) (hm : 1 ≤ maxH) (s : CH)
    (u : String) (hl : (mapGet s u).length ≤ maxH * 2) :
    getConversationHistory maxH s u = mapGet s u := by
  unfold getConversationHistory sliceLast
  have hne : ¬ maxH * 2 = 0 := by omega
  simp only [hne, if_false]
  rw [Nat.sub_eq_zero_of_le hl, List.drop_zero]

theorem mapGet_appendExchanges (maxH : Nat) (hm : 1 ≤ maxH)
    (exs : List (String × String)) (s : CH) (u : String)
    (hl : (mapGet s u).length ≤ maxH * 2) :
    mapGet (appendExchanges maxH exs s u) u
      = lastN (maxH * 2) (mapGet s u ++ (exs.map exchangeMsgs).flatten) := by
  induction exs generalizing s with
  | nil =>
    simp only [appendExchanges, List.foldl_nil, List.map_nil,
      List.flatten_nil, List.append_nil]
    rw [lastN_of_le hl]
  | cons p rest ih =>
    have hstep : appendExchanges maxH (p :: rest) s u
        = appendExchanges maxH rest (updateConversationHistory maxH s u p.1 p.2) u := rfl
    set s1 := updateConversationHistory maxH s u p.1 p.2 with hs1
    have hget1 : mapGet s1 u
        = lastN (maxH * 2) (mapGet s u ++ exchangeMsgs p) := by
      rw [hs1, mapGet_update_self, getHistory_eq_mapGet maxH hm s u hl]
      rfl
    have hlen1 : (mapGet s1 u).length ≤ maxH * 2 := by
      rw [hget1]; exact length_lastN_le _ _
    rw [hstep, ih s1 hlen1, hget1, lastN_append_lastN]
    rw [List.append_assoc]
    rfl

theorem length_flatten_exchangeMsgs (exs : List (String × String)) :
    ((exs.map exchangeMsgs).flatten).length = 2 * exs.length := by
  induction exs with
  | nil => simp
  | cons p rest ih =>
    simp only [List.map_cons, List.flatten_cons, List.length_append, ih,
      List.length_cons]
    simp [exchangeMsgs]
    omega

/-! ### `Math.min` and `Map`-wellformedness lemmas -/

theorem foldl_min_mem (ts : List Int) (t : Int) :
    ts.foldl min t ∈ t :: ts := by
  induction ts generalizing t with
  | nil => simp
  | cons a ts ih =>
    have h := ih (min t a)
    simp only [List.foldl_cons]
    rcases List.mem_cons.mp h with h1 | h1
    · rw [h1]
      rcases le_total t a with hle | hle
      · rw [min_eq_left hle]; simp
      · rw [min_eq_right hle]; simp
    · simp [h1]

theorem foldl_min_le (ts : List Int) (t : Int) :
    ts.foldl min t ≤ t ∧ ∀ x ∈ ts, ts.foldl min t ≤ x := by
  induction ts generalizing t with
  | nil => simp
  | cons a ts ih =>
    obtain ⟨h1, h2⟩ := ih (min t a)
    simp only [List.foldl_cons]
    refine ⟨le_trans h1 (min_le_left _ _), ?_⟩
    intro x hx
    rcases List.mem_cons.mp hx with rfl | hx
    · exact le_trans h1 (min_le_right _ _)
    · exact h2 x hx

theorem listMin_mem (t : Int) (ts : List Int) :
    listMin (t :: ts) ∈ t :: ts :=
  foldl_min_mem ts t

theorem listMin_le (t : Int) (ts : List Int) :
    ∀ x ∈ t :: ts, listMin (t :: ts) ≤ x := by
  intro x hx
  rcases List.mem_cons.mp hx with rfl | hx
  · exact (foldl_min_le ts x).1
  · exact (foldl_min_le ts t).2 x hx

/-- In a map with no duplicate keys (which every JS `Map` state is), two
entries sharing a key are the same entry. -/
theorem nodupKeys_inj {s : List (String × List α)}
    (hnd : (s.map (fun p => p.1)).Nodup) {p q : String × List α}
    (hp : p ∈ s) (hq : q ∈ s) (hk : p.1 = q.1) : p = q := by
  induction s with
  | nil => cases hp
  | cons a rest ih =>
    simp only [List.map_cons, List.nodup_cons] at hnd
    rcases List.mem_cons.mp hp with rfl | hp' <;>
      rcases List.mem_cons.mp hq with rfl | hq'
    · rfl
    · exact absurd (List.mem_map.mpr ⟨q, hq', hk.symm⟩) hnd.1
    · exact absurd (List.mem_map.mpr ⟨p, hp', hk⟩) hnd.1
    · exact ih hnd.2 hp' hq'

theorem cleanup_length (W now : Int) (s : RL) :
    (cleanup W now s).length
      = s.length
        - (s.filter
            (fun p => (p.2.filter (fun t => now - W < t)).isEmpty)).length := by
  induction s with
  | nil => rfl
  | cons p rest ih =>
    have hle : (rest.filter
        (fun p => (p.2.filter (fun t => now - W < t)).isEmpty)).length
        ≤ rest.length := List.length_filter_le _ _
    unfold cleanup at ih ⊢
    simp only [List.map_cons, List.filter_cons]
    by_cases h : (p.2.filter (fun t => now - W < t)).isEmpty
    · simp [h, ih]
    · have h' : (p.2.filter (fun t => now - W < t)).isEmpty = false :=
        Bool.eq_false_iff.mpr h
      simp [h', ih]
      omega

/-! ## Claim theorems -/

/-- C1: `isRateLimited(U)` returns true iff the number of stored timestamps
for `U` within the trailing window `W` is at least the limit `L`, and as a
side effect replaces `U`'s stored sequence with exactly the pruned
valid-only set; consequently, starting from a state where `U` has no stored
requests, after `recordRequest(U)` is called `L` times within the window
`W` of `now`, `isRateLimited(U)` returns true, and after only `L - 1` such
calls it returns false. -/
theorem isRateLimited_spec :
    (∀ (W : Int) (L : Nat) (now : Int) (s : RL) (u : String),
      ((isRateLimited W L now s u).1 = true
          ↔ L ≤ (validOf W now (mapGet s u)).length)
      ∧ mapGet (isRateLimited W L now s u).2 u = validOf W now (mapGet s u))
    ∧ (∀ (W : Int) (L : Nat) (now : Int) (s : RL) (u : String)
        (ts : List Int), mapGet s u = [] → ts.length = L →
        (∀ t ∈ ts, now - t < W) →
        (isRateLimited W L now (recordRequests ts s u) u).1 = true)
    ∧ (∀ (W : Int) (L : Nat) (now : Int) (s : RL) (u : String)
        (ts : List Int), mapGet s u = [] → ts.length + 1 = L →
        (∀ t ∈ ts, now - t < W) →
        (isRateLimited W L now (recordRequests ts s u) u).1 = false) := by
  have hval : ∀ (W now : Int) (ts : List Int), (∀ t ∈ ts, now - t < W) →
      validOf W now ts = ts := by
    intro W now ts h
    unfold validOf
    rw [List.filter_eq_self]
    intro t ht
    exact decide_eq_true (h t ht)
  refine ⟨?_, ?_, ?_⟩
  · intro W L now s u
    constructor
    · simp [isRateLimited]
    · simp [isRateLimited, mapGet_mapSet_self]
  · intro W L now s u ts h0 hlen hwin
    have hget : mapGet (recordRequests ts s u) u = ts := by
      rw [mapGet_recordRequests, h0, List.nil_append]
    simp [isRateLimited, hget, hval W now ts hwin, hlen]
  · intro W L now s u ts h0 hlen hwin
    have hget : mapGet (recordRequests ts s u) u = ts := by
      rw [mapGet_recordRequests, h0, List.nil_append]
    simp [isRateLimited, hget, hval W now ts hwin]
    omega

/-- Witness for C1 at the spec's concrete scenario `L = 2`, `W = 1000`:
two requests recorded at `t = 0` rate-limit `"u1"` at `t = 0`. -/
theorem isRateLimited_spec_witness :
    mapGet ([] : RL) "u1" = [] ∧ ([(0 : Int), 0]).length = 2
    ∧ (isRateLimited 1000 2 0 (recordRequests [0, 0] [] "u1") "u1").1
        = true :=
  ⟨rfl, rfl,
    isRateLimited_spec.2.1 1000 2 0 [] "u1" [0, 0] rfl rfl (by decide)⟩

/-- C7: with limit `L = 0`, `isRateLimited` returns true for every user in
every state, including the empty state. -/
theorem isRateLimited_zero_limit :
    ∀ (W now : Int) (s : RL) (u : String),
      (isRateLimited W 0 now s u).1 = true := by
  intro W now s u
  simp [isRateLimited]

/-- C8: `clearConversationHistory(U)` followed by `getConversationHistory(U)`
yields the empty sequence, from every prior state. -/
theorem clear_then_getHistory :
    ∀ (maxH : Nat) (s : CH) (u : String),
      getConversationHistory maxH (clearConversationHistory s u) u = [] := by
  intro maxH s u
  unfold getConversationHistory clearConversationHistory
  rw [mapGet_mapDelete_self]
  simp [sliceLast]

/-- C9: `getRemainingRequests` and `getTimeUntilReset` are pure reads: they
return the map unchanged in every state; in contrast, `isRateLimited` does
write the pruned set back (shown by a state it actually changes). -/
theorem pure_reads_frame :
    (∀ (W : Int) (L : Nat) (now : Int) (s : RL) (u : String),
      (getRemainingRequests W L now s u).2 = s
      ∧ (getTimeUntilReset W now s u).2 = s)
    ∧ (isRateLimited 50 2 100 [("u", [0])] "u").2 ≠ [("u", [0])] := by
  refine ⟨fun W L now s u => ⟨rfl, rfl⟩, ?_⟩
  decide

/-- C10: per-user isolation: operations on user `u` leave any distinct user
`v`'s entry unchanged, in both the rate-limiter map and the
conversation-history map. -/
theorem per_user_isolation :
    ∀ (u v : String), u ≠ v →
      (∀ (W : Int) (L : Nat) (now : Int) (s : RL),
        mapGet (isRateLimited W L now s u).2 v = mapGet s v
        ∧ mapGet (recordRequest now s u) v = mapGet s v)
      ∧ (∀ (maxH : Nat) (s : CH) (um am : String),
        mapGet (updateConversationHistory maxH s u um am) v = mapGet s v
        ∧ mapGet (clearConversationHistory s u) v = mapGet s v) := by
  intro u v huv
  refine ⟨fun W L now s => ⟨?_, ?_⟩, fun maxH s um am => ⟨?_, ?_⟩⟩
  · exact mapGet_mapSet_ne s u v _ huv
  · exact mapGet_mapSet_ne s u v _ huv
  · exact mapGet_mapSet_ne s u v _ huv
  · exact mapGet_mapDelete_ne s u v huv

/-- Witness for C10: recording a request for `"u1"` leaves `"u2"`'s stored
timestamps unchanged. -/
theorem per_user_isolation_witness :
    "u1" ≠ "u2"
    ∧ mapGet (recordRequest 7 [("u2", [5])] "u1") "u2"
        = mapGet [("u2", [5])] "u2" :=
  ⟨by decide,
    (per_user_isolation "u1" "u2" (by decide)).1 0 3 7 [("u2", [5])] |>.2⟩

/-- C2: for every user, after `updateConversationHistory` the stored history
never exceeds `maxExchanges * 2` entries, and the stored result is exactly
the previous history plus the two new entries with the overflow dropped
from the front, oldest first; after `clearConversationHistory` the stored
history is empty.  (`getConversationHistory` does not write the map at all:
it is a plain function of the state in this embedding.) -/
theorem conversation_bound_fifo :
    ∀ (maxH : Nat) (s : CH) (u um am : String),
      (mapGet (updateConversationHistory maxH s u um am) u).length ≤ maxH * 2
      ∧ mapGet (updateConversationHistory maxH s u um am) u
          = lastN (maxH * 2)
              (getConversationHistory maxH s u
                ++ [⟨"user", um⟩, ⟨"assistant", am⟩])
      ∧ mapGet (clearConversationHistory s u) u = [] := by
  intro maxH s u um am
  refine ⟨?_, mapGet_update_self maxH s u um am, mapGet_mapDelete_self s u⟩
  rw [mapGet_update_self maxH s u um am]
  exact length_lastN_le _ _

/-- C4: `getRemainingRequests(U)` equals `max(0, L - validCount)`; and with
time held fixed at `now` inside a positive window `W`, one `recordRequest`
takes the remaining count from `r` to `max(0, r - 1)`: it strictly
decreases by 1 until it reaches 0, then stays at 0. -/
theorem getRemainingRequests_spec :
    (∀ (W : Int) (L : Nat) (now : Int) (s : RL) (u : String),
      (getRemainingRequests W L now s u).1
        = max 0 ((L : Int) - ((validOf W now (mapGet s u)).length : Int)))
    ∧ (∀ (W : Int) (L : Nat) (now : Int) (s : RL) (u : String), 0 < W →
      (getRemainingRequests W L now (recordRequest now s u) u).1
        = max 0 ((getRemainingRequests W L now s u).1 - 1)) := by
  refine ⟨fun W L now s u => rfl, fun W L now s u hW => ?_⟩
  have hget : mapGet (recordRequest now s u) u = mapGet s u ++ [now] :=
    mapGet_mapSet_self s u _
  have hfil : validOf W now (mapGet s u ++ [now])
      = validOf W now (mapGet s u) ++ [now] := by
    unfold validOf
    rw [List.filter_append]
    congr 1
    simp [hW]
  simp only [getRemainingRequests, hget, hfil, List.length_append,
    List.length_singleton]
  simp only [Int.max_def]
  push_cast
  split_ifs <;> omega

/-- Witness for C4: with `W = 1000`, `L = 2`, `now = 0` and an empty map,
one `recordRequest` drops the remaining count from 2 to `max 0 (2 - 1)`. -/
theorem getRemainingRequests_spec_witness :
    (0 : Int) < 1000
    ∧ (getRemainingRequests 1000 2 0 (recordRequest 0 [] "u1") "u1").1
        = max 0 ((getRemainingRequests 1000 2 0 [] "u1").1 - 1) :=
  ⟨by decide, getRemainingRequests_spec.2 1000 2 0 [] "u1" (by decide)⟩

/-- The C3 claim's reading of `getTimeUntilReset`, modelled from its words:
`0` when no stored requests, otherwise
`max(0, oldestValidTimestamp + W - now)` where `oldestValidTimestamp` is the
oldest STORED timestamp still within the window `W` of `now`. -/
def getTimeUntilResetClaim (W now : Int) (s : RL) (u : String) : Int :=
  if (mapGet s u).length = 0 then 0
  else max 0 (listMin (validOf W now (mapGet s u)) + W - now)

/-- Counterexample to C3: with `W = 60`, `now = 100` and stored timestamps
`[0, 50]` for `"u"` (the `0` is expired, the `50` is valid, so the oldest
valid timestamp is `50`), the claim demands
`max(0, 50 + 60 - 100) = 10`, but the code takes `Math.min` over ALL stored
timestamps, expired ones included, and returns `max(0, 0 + 60 - 100) = 0`. -/
theorem getTimeUntilReset_claim_counterexample :
    (getTimeUntilReset 60 100 [("u", [0, 50])] "u").1 = 0
    ∧ getTimeUntilResetClaim 60 100 [("u", [0, 50])] "u" = 10
    ∧ (getTimeUntilReset 60 100 [("u", [0, 50])] "u").1
        ≠ getTimeUntilResetClaim 60 100 [("u", [0, 50])] "u" := by
  refine ⟨by decide, by decide, by decide⟩

/-- C3 amended: `getTimeUntilReset(U)` returns `0` when `U` has no stored
requests, and otherwise `max(0, m + W - now)` where `m` is the oldest of
ALL of `U`'s stored timestamps, expired ones included. -/
theorem getTimeUntilReset_amended :
    ∀ (W now : Int) (s : RL) (u : String),
      (mapGet s u = [] → (getTimeUntilReset W now s u).1 = 0)
      ∧ (mapGet s u ≠ [] →
          ∃ m, m ∈ mapGet s u ∧ (∀ x ∈ mapGet s u, m ≤ x)
            ∧ (getTimeUntilReset W now s u).1 = max 0 (m + W - now)) := by
  intro W now s u
  constructor
  · intro h
    simp [getTimeUntilReset, h]
  · intro h
    rcases hm : mapGet s u with _ | ⟨t, ts⟩
    · exact absurd hm h
    refine ⟨listMin (t :: ts), listMin_mem t ts, listMin_le t ts, ?_⟩
    simp [getTimeUntilReset, hm]

/-- Witness for C3's amended theorem: an empty map yields reset time `0`. -/
theorem getTimeUntilReset_amended_witness :
    mapGet ([] : RL) "u1" = [] ∧ (getTimeUntilReset 60 100 [] "u1").1 = 0 :=
  ⟨rfl, (getTimeUntilReset_amended 60 100 [] "u1").1 rfl⟩

/-- C5: for `maxExchanges ≥ 1` and a user with no stored history, calling
`updateConversationHistory` `maxExchanges + 1` times yields a
`getConversationHistory` of exactly `maxExchanges * 2` entries, namely the
appended exchanges with the first (oldest) one dropped and all later ones,
the newest included, kept in order. -/
theorem appendExchanges_overflow (maxH : Nat) (hm : 1 ≤ maxH) (s : CH)
    (u : String) (h0 : mapGet s u = []) (exs : List (String × String))
    (hlen : exs.length = maxH + 1) :
    getConversationHistory maxH (appendExchanges maxH exs s u) u
        = ((exs.drop 1).map exchangeMsgs).flatten
    ∧ (getConversationHistory maxH (appendExchanges maxH exs s u) u).length
        = maxH * 2 := by
  have h0len : (mapGet s u).length ≤ maxH * 2 := by rw [h0]; simp
  have hstored : mapGet (appendExchanges maxH exs s u) u
      = lastN (maxH * 2) ((exs.map exchangeMsgs).flatten) := by
    rw [mapGet_appendExchanges maxH hm exs s u h0len, h0, List.nil_append]
  rcases hexs : exs with _ | ⟨p, rest⟩
  · rw [hexs] at hlen; simp at hlen
  rw [hexs] at hstored hlen
  have hrest : rest.length = maxH := by simpa using hlen
  have hflat : ((p :: rest).map exchangeMsgs).flatten
      = exchangeMsgs p ++ (rest.map exchangeMsgs).flatten := by
    simp
  have hflen : ((rest.map exchangeMsgs).flatten).length = maxH * 2 := by
    rw [length_flatten_exchangeMsgs, hrest]; ring
  have htail : lastN (maxH * 2) (((p :: rest).map exchangeMsgs).flatten)
      = (rest.map exchangeMsgs).flatten := by
    rw [hflat]
    unfold lastN
    have hp2 : (exchangeMsgs p).length = 2 := rfl
    have : (exchangeMsgs p ++ (rest.map exchangeMsgs).flatten).length
        - maxH * 2 = (exchangeMsgs p).length := by
      simp [hp2, hflen]
    rw [this, List.drop_left]
  have hstored2 : mapGet (appendExchanges maxH (p :: rest) s u) u
      = (rest.map exchangeMsgs).flatten := by rw [hstored, htail]
  have hget : getConversationHistory maxH (appendExchanges maxH (p :: rest) s u) u
      = (rest.map exchangeMsgs).flatten := by
    rw [getHistory_eq_mapGet maxH hm _ u (by rw [hstored2, hflen]), hstored2]
  constructor
  · rw [hget]
    simp
  · rw [hget, hflen]

/-- Witness for C5 at the spec's concrete scenario `maxExchanges = 1`:
appending `("hi","hello")` then `("bye","goodbye")` for `"u1"` leaves
exactly the second exchange. -/
theorem appendExchanges_overflow_witness :
    (1 : Nat) ≤ 1 ∧ mapGet ([] : CH) "u1" = []
    ∧ getConversationHistory 1
        (appendExchanges 1 [("hi", "hello"), ("bye", "goodbye")] [] "u1") "u1"
        = [⟨"user", "bye"⟩, ⟨"assistant", "goodbye"⟩] :=
  ⟨le_refl 1, rfl,
    (appendExchanges_overflow 1 (le_refl 1) [] "u1" rfl
      [("hi", "hello"), ("bye", "goodbye")] rfl).1.trans (by decide)⟩

/-- C6: after one `cleanup` sweep, every user all of whose stored timestamps
have age strictly greater than `W` is removed from the map entirely (in a
well-formed map, with no duplicate keys); every remaining user's list holds
only valid (non-expired) timestamps; and `getStats().activeUsers` drops by
exactly the number of users whose valid set became empty. -/
theorem cleanup_spec :
    ∀ (W now : Int) (s : RL),
      ((s.map (fun p => p.1)).Nodup →
        ∀ u ts, (u, ts) ∈ s → (∀ t ∈ ts, W < now - t) →
          ∀ vs, (u, vs) ∉ cleanup W now s)
      ∧ (∀ u ts, (u, ts) ∈ cleanup W now s → ∀ t ∈ ts, now - t < W)
      ∧ (getStats (cleanup W now s)).1
          = (getStats s).1
            - (s.filter
                (fun p => (p.2.filter (fun t => now - W < t)).isEmpty)).length := by
  intro W now s
  refine ⟨?_, ?_, cleanup_length W now s⟩
  · intro hnd u ts hmem hexp vs hv
    unfold cleanup at hv
    rw [List.mem_filter] at hv
    obtain ⟨hv1, hv2⟩ := hv
    rw [List.mem_map] at hv1
    obtain ⟨q, hq, hqe⟩ := hv1
    have hkey : q.1 = u := congrArg Prod.fst hqe
    have hq_eq : q = (u, ts) := nodupKeys_inj hnd hq hmem hkey
    have hvs : vs = ts.filter (fun t => now - W < t) := by
      rw [hq_eq] at hqe
      exact (congrArg Prod.snd hqe).symm
    have hemp : ts.filter (fun t => now - W < t) = [] := by
      rw [List.filter_eq_nil_iff]
      intro t ht
      have := hexp t ht
      simp only [decide_eq_true_eq]
      omega
    rw [hvs, hemp] at hv2
    simp at hv2
  · intro u ts hmem t ht
    unfold cleanup at hmem
    rw [List.mem_filter] at hmem
    obtain ⟨h1, _⟩ := hmem
    rw [List.mem_map] at h1
    obtain ⟨q, _, hqe⟩ := h1
    have hts : ts = q.2.filter (fun t => now - W < t) :=
      (congrArg Prod.snd hqe).symm
    rw [hts, List.mem_filter] at ht
    have := ht.2
    simp only [decide_eq_true_eq] at this
    omega

/-- Witness for C6: user `"u"` with the single expired timestamp `0`
(`W = 50`, `now = 100`) is gone from the map after `cleanup`. -/
theorem cleanup_spec_witness :
    (50 : Int) < 100 - 0
    ∧ ("u", ([60] : List Int)) ∉ cleanup 50 100 [("u", [0])] :=
  ⟨by decide,
    (cleanup_spec 50 100 [("u", [0])]).1 (by simp) "u" [0] (by simp)
      (by decide) [60]⟩

end Carvbot
